import Mathlib

/-!
Shallow embedding of the job-searcher pipeline (TypeScript) in Lean 4.

Embedded modules:
* `src/analyzers/rule-based.ts` — the rule-based scorer (`scoreSkills`,
  `scoreExperienceLevel`, `scoreLocation`, `scoreExclusions`,
  `scoreBonusFeatures`, `analyzeJob`).
* `src/database.ts` — `createJobHash` (MD5 fingerprint),
  `weeklyRefreshJobs`, `saveJobToDatabase`.
* `src/scraper.ts` — `removeDuplicateJobs`.
* `src/analyzer-new.ts` — `analyzeAndSaveJobsIncremental`.

JavaScript semantics are mirrored explicitly: template-literal
interpolation of `undefined` produces the string "undefined",
`String.prototype.includes` is substring search, `toLowerCase` maps
characters to lower case, `Math.max/min/round` act on integer scores.
-/

namespace JobSearcher

/-- Model of JavaScript `String.prototype.toLowerCase` (character-wise
lowering; the postings and criteria handled by the program are ASCII). -/
def jsToLower (s : String) : String := ⟨s.data.map Char.toLower⟩

/-- Does the character list `l` start with `pat`? -/
def listStarts : List Char → List Char → Bool
  | [], _ => true
  | _ :: _, [] => false
  | p :: ps, c :: cs => p == c && listStarts ps cs

/-- Does the character list contain `pat` as a contiguous sublist? -/
def listHasSub (pat : List Char) : List Char → Bool
  | [] => listStarts pat []
  | c :: cs => listStarts pat (c :: cs) || listHasSub pat cs

/-- Model of JavaScript `s.includes(pat)`: substring containment. -/
def sIncl (s pat : String) : Bool := listHasSub pat.data s.data

/-- Embedding of `JobPosting` from `src/types.ts` (the fields used by the embedded modules). -/
structure JobPosting where
  title : String
  company : String
  url : String
  description : Option String := none
  score : Option Int := none
  source : Option String := none
deriving DecidableEq

/-- Embedding of `UserCriteria` from `src/types.ts`. -/
structure UserCriteria where
  keywords : List String
  locations : List String
  experienceLevel : String
  coreSkills : List String
  remotePreference : String
  excludedKeywords : Option (List String) := none
deriving DecidableEq

/-- The text every scoring function matches against:
`` `${job.title} ${job.description}`.toLowerCase() ``.  When
`description` is `undefined`, JavaScript interpolates the literal
string "undefined". -/
def jobTextOf (job : JobPosting) : String :=
  jsToLower (job.title ++ " " ++
    (match job.description with
     | some d => d
     | none => "undefined"))

/-- Result record `{ score, reasons }` returned by each scoring helper. -/
structure ScoreResult where
  score : Int
  reasons : List String
deriving DecidableEq

/-- JavaScript object assignment `groups[k] = v` on a
`Record<string, string[]>`, modelled on an association list. -/
def recSet (m : List (String × List String)) (k : String) (v : List String) :
    List (String × List String) :=
  match m with
  | [] => [(k, v)]
  | (k', v') :: rest => if k' == k then (k, v) :: rest else (k', v') :: recSet rest k v

/-- JavaScript property read `m[k]` on the association-list record. -/
def recGet (m : List (String × List String)) (k : String) :
    Option (List String) :=
  match m with
  | [] => none
  | (k', v') :: rest => if k' == k then some v' else recGet rest k

/-- The variations pushed for one (lowercased) skill key by
`createSkillGroups`'s loop body: `groups[key] = [key]` followed by the
conditional `push` calls. -/
def skillVariations (key : String) : List String :=
  [key]
    ++ (if key == "react" then ["reactjs", "react.js"] else [])
    ++ (if key == "vue" then ["vuejs", "vue.js"] else [])
    ++ (if key == "angular" then ["angularjs"] else [])
    ++ (if key == "node" then ["nodejs", "node.js"] else [])
    ++ (if key == "typescript" then ["ts"] else [])
    ++ (if key == "javascript" then ["js", "es6", "es2015"] else [])
    ++ (if key == "python" then ["py"] else [])
    ++ (if key == "docker" then ["containerization"] else [])
    ++ (if key == "kubernetes" then ["k8s"] else [])
    ++ (if key == "aws" then ["amazon web services"] else [])

/-- Embedding of `createSkillGroups` from `src/analyzers/rule-based.ts`: builds the
record of skill variations, one entry per lowercased skill. -/
def createSkillGroups (skills : List String) : List (String × List String) :=
  skills.foldl
    (fun groups skill =>
      recSet groups (jsToLower skill) (skillVariations (jsToLower skill)))
    []

/-- The per-skill match test inside `scoreSkills`'s loop:
`(skillGroups[skill.toLowerCase()] || [skill.toLowerCase()])
  .some((variation) => jobText.includes(variation))`. -/
def skillIsMatch (groups : List (String × List String)) (jobText skill : String) :
    Bool :=
  ((recGet groups (jsToLower skill)).getD [jsToLower skill]).any
    (fun variation => sIncl jobText variation)

/-- Embedding of `scoreSkills` from `src/analyzers/rule-based.ts` (40 points max). -/
def scoreSkills (job : JobPosting) (coreSkills : List String) : ScoreResult :=
  if coreSkills.isEmpty then ⟨15, ["No specific skills required"]⟩
  else
    let jobText := jobTextOf job
    let skillGroups := createSkillGroups coreSkills
    let matchedSkills := coreSkills.countP (skillIsMatch skillGroups jobText)
    let reasons := coreSkills.filterMap
      (fun skill =>
        if skillIsMatch skillGroups jobText skill then some ("✓ " ++ skill)
        else none)
    let score : Int :=
      if matchedSkills > 2 then 40
      else if matchedSkills == 0 then 0
      else if matchedSkills ≤ 2 then 30
      else 0
    ⟨score, reasons⟩

/-- The `levelMappings` table of `scoreExperienceLevel`. -/
def levelMappings : List (String × List String) :=
  [("junior", ["junior", "entry", "graduate", "0-2 years", "new grad"]),
   ("mid", ["mid", "intermediate", "2-5 years", "3-5 years", "experienced"]),
   ("senior", ["senior", "lead", "5+ years", "7+ years", "expert", "principal"])]

/-- Embedding of `scoreExperienceLevel` from `src/analyzers/rule-based.ts`
(30 points max); `!preferredLevel` is the empty-string test. -/
def scoreExperienceLevel (job : JobPosting) (preferredLevel : String) :
    ScoreResult :=
  if preferredLevel == "" then ⟨15, ["No experience preference"]⟩
  else
    let jobText := jobTextOf job
    let targetLevel := jsToLower preferredLevel
    let targetTerms := (recGet levelMappings targetLevel).getD [targetLevel]
    let hasMatch := targetTerms.any (fun term => sIncl jobText term)
    let hasConflict :=
      (levelMappings.filter (fun p => p.1 != targetLevel)).any
        (fun p => p.2.any (fun term => sIncl jobText term))
    if hasMatch then ⟨30, ["✓ Matches " ++ preferredLevel ++ " level"]⟩
    else if hasConflict then ⟨8, ["⚠ Different experience level detected"]⟩
    else ⟨15, []⟩

/-- The `remoteTerms` list of `scoreLocation`. -/
def remoteTerms : List String :=
  ["remote", "work from home", "wfh", "distributed", "anywhere"]

/-- Embedding of `scoreLocation` from `src/analyzers/rule-based.ts` (30 points max):
base 15, remote bonus sets 30, location match raises to `max score 25`. -/
def scoreLocation (job : JobPosting) (criteria : UserCriteria) : ScoreResult :=
  let jobText := jobTextOf job
  let score0 : Int := 15
  let hasRemote := remoteTerms.any (fun term => sIncl jobText term)
  let remoteHit :=
    (criteria.remotePreference == "remote" ||
     criteria.remotePreference == "hybrid") && hasRemote
  let score1 : Int := if remoteHit then 30 else score0
  let reasons1 : List String := if remoteHit then ["✓ Remote work available"] else []
  let hasLocationMatch :=
    criteria.locations.any (fun location => sIncl jobText (jsToLower location))
  let locationHit := !criteria.locations.isEmpty && hasLocationMatch
  let score2 : Int := if locationHit then max score1 25 else score1
  let reasons2 : List String :=
    if locationHit then reasons1 ++ ["✓ Preferred location"] else reasons1
  ⟨score2, reasons2⟩

/-- Embedding of `scoreExclusions` from `src/analyzers/rule-based.ts`:
−10 per excluded keyword found in the job text. -/
def scoreExclusions (job : JobPosting) (criteria : UserCriteria) : ScoreResult :=
  let excludedKeywords := criteria.excludedKeywords.getD []
  if excludedKeywords.isEmpty then ⟨0, []⟩
  else
    let jobText := jobTextOf job
    let penalty : Int :=
      excludedKeywords.foldl
        (fun p keyword => if sIncl jobText (jsToLower keyword) then p - 10 else p)
        0
    let reasons := excludedKeywords.filterMap
      (fun keyword =>
        if sIncl jobText (jsToLower keyword) then
          some ("✗ Contains excluded: " ++ keyword)
        else none)
    ⟨penalty, reasons⟩

/-- The `premiumIndicators` table of `scoreBonusFeatures`:
(terms, points, label). -/
def premiumIndicators : List (List String × Int × String) :=
  [(["equity", "stock options", "rsu"], 3, "Equity offered"),
   (["unlimited pto", "flexible time off"], 3, "Flexible PTO"),
   (["learning budget", "conference", "training"], 2, "Learning opportunities")]

/-- Embedding of `scoreBonusFeatures` from `src/analyzers/rule-based.ts`
(capped at 10 by `Math.min`). -/
def scoreBonusFeatures (job : JobPosting) : ScoreResult :=
  let jobText := jobTextOf job
  let bonus : Int :=
    premiumIndicators.foldl
      (fun b ind =>
        if ind.1.any (fun term => sIncl jobText term) then b + ind.2.1 else b)
      0
  let reasons := premiumIndicators.filterMap
    (fun ind =>
      if ind.1.any (fun term => sIncl jobText term) then some ("✓ " ++ ind.2.2)
      else none)
  ⟨min bonus 10, reasons⟩

/-- Embedding of `analyzeJob` from `src/analyzers/rule-based.ts`: sum of the five
sub-scores, clamped by `Math.max(0, Math.min(100, score))`;
`Math.round` is the identity on the integer-valued result. -/
def analyzeJob (job : JobPosting) (criteria : UserCriteria) : JobPosting :=
  let score :=
    (scoreSkills job criteria.coreSkills).score
    + (scoreExperienceLevel job criteria.experienceLevel).score
    + (scoreLocation job criteria).score
    + (scoreExclusions job criteria).score
    + (scoreBonusFeatures job).score
  let clamped := max 0 (min 100 score)
  { job with score := some clamped }

/-! ### MD5 (`crypto.createHash('md5')`), RFC 1321, over UTF-8 bytes -/

/-- UTF-8 encoding of one character (as byte values). -/
def utf8Bytes (c : Char) : List Nat :=
  let n := c.toNat
  if n < 128 then [n]
  else if n < 2048 then [192 + n / 64, 128 + n % 64]
  else if n < 65536 then
    [224 + n / 4096, 128 + (n / 64) % 64, 128 + n % 64]
  else
    [240 + n / 262144, 128 + (n / 4096) % 64, 128 + (n / 64) % 64, 128 + n % 64]

/-- The UTF-8 bytes of a string (Node's `hash.update(s)` default encoding). -/
def strBytes (s : String) : List Nat := (s.data.map utf8Bytes).flatten

/-- Truncation to 32 bits. -/
def m32 (x : Nat) : Nat := x % 4294967296

/-- Left rotation of a 32-bit value (`x` is assumed `< 2^32`). -/
def rotl32 (x n : Nat) : Nat := (m32 (x <<< n)) ||| (x >>> (32 - n))

/-- The per-round shift amounts of MD5. -/
def md5S : List Nat :=
  [7, 12, 17, 22, 7, 12, 17, 22, 7, 12, 17, 22, 7, 12, 17, 22,
   5, 9, 14, 20, 5, 9, 14, 20, 5, 9, 14, 20, 5, 9, 14, 20,
   4, 11, 16, 23, 4, 11, 16, 23, 4, 11, 16, 23, 4, 11, 16, 23,
   6, 10, 15, 21, 6, 10, 15, 21, 6, 10, 15, 21, 6, 10, 15, 21]

/-- The sine-derived constant table of MD5. -/
def md5K : List Nat :=
  [0xd76aa478, 0xe8c7b756, 0x242070db, 0xc1bdceee,
   0xf57c0faf, 0x4787c62a, 0xa8304613, 0xfd469501,
   0x698098d8, 0x8b44f7af, 0xffff5bb1, 0x895cd7be,
   0x6b901122, 0xfd987193, 0xa679438e, 0x49b40821,
   0xf61e2562, 0xc040b340, 0x265e5a51, 0xe9b6c7aa,
   0xd62f105d, 0x02441453, 0xd8a1e681, 0xe7d3fbc8,
   0x21e1cde6, 0xc33707d6, 0xf4d50d87, 0x455a14ed,
   0xa9e3e905, 0xfcefa3f8, 0x676f02d9, 0x8d2a4c8a,
   0xfffa3942, 0x8771f681, 0x6d9d6122, 0xfde5380c,
   0xa4beea44, 0x4bdecfa9, 0xf6bb4b60, 0xbebfbc70,
   0x289b7ec6, 0xeaa127fa, 0xd4ef3085, 0x04881d05,
   0xd9d4d039, 0xe6db99e5, 0x1fa27cf8, 0xc4ac5665,
   0xf4292244, 0x432aff97, 0xab9423a7, 0xfc93a039,
   0x655b59c3, 0x8f0ccc92, 0xffeff47d, 0x85845dd1,
   0x6fa87e4f, 0xfe2ce6e0, 0xa3014314, 0x4e0811a1,
   0xf7537e82, 0xbd3af235, 0x2ad7d2bb, 0xeb86d391]

/-- MD5 padding: a `0x80` byte, zeros to 56 mod 64, then the 64-bit
little-endian bit length. -/
def md5Pad (msg : List Nat) : List Nat :=
  let bitLen := msg.length * 8
  let zeros := (119 - msg.length % 64) % 64
  msg ++ [128] ++ List.replicate zeros 0
    ++ (List.range 8).map (fun i => (bitLen >>> (8 * i)) % 256)

/-- Little-endian 32-bit word `g` of a 64-byte block. -/
def leWord (block : List Nat) (g : Nat) : Nat :=
  block.getD (4 * g) 0 + 256 * block.getD (4 * g + 1) 0
    + 65536 * block.getD (4 * g + 2) 0 + 16777216 * block.getD (4 * g + 3) 0

/-- One of the 64 MD5 rounds. -/
def md5Round (block : List Nat) (st : Nat × Nat × Nat × Nat) (i : Nat) :
    Nat × Nat × Nat × Nat :=
  let (a, b, c, d) := st
  let fg : Nat × Nat :=
    if i < 16 then ((b &&& c) ||| ((b ^^^ 4294967295) &&& d), i)
    else if i < 32 then ((d &&& b) ||| ((d ^^^ 4294967295) &&& c), (5 * i + 1) % 16)
    else if i < 48 then (b ^^^ c ^^^ d, (3 * i + 5) % 16)
    else (c ^^^ (b ||| (d ^^^ 4294967295)), (7 * i) % 16)
  let tmp := m32 (fg.1 + a + md5K.getD i 0 + leWord block fg.2)
  (d, m32 (b + rotl32 tmp (md5S.getD i 0)), b, c)

/-- Process one 64-byte block. -/
def md5Block (st : Nat × Nat × Nat × Nat) (block : List Nat) :
    Nat × Nat × Nat × Nat :=
  let r := (List.range 64).foldl (md5Round block) st
  (m32 (st.1 + r.1), m32 (st.2.1 + r.2.1), m32 (st.2.2.1 + r.2.2.1),
   m32 (st.2.2.2 + r.2.2.2))

/-- Split a byte list into 64-byte chunks. -/
def chunks64 (l : List Nat) : List (List Nat) :=
  if h : l = [] then []
  else l.take 64 :: chunks64 (l.drop 64)
termination_by l.length
decreasing_by
  rw [List.length_drop]
  have := List.length_pos.mpr h
  omega

/-- Lower-case hex digit. -/
def hexChar (n : Nat) : Char :=
  if n < 10 then Char.ofNat (48 + n) else Char.ofNat (87 + n)

/-- Two hex digits of a byte. -/
def byteHex (b : Nat) : List Char := [hexChar (b / 16), hexChar (b % 16)]

/-- Hex rendering of a 32-bit word, least-significant byte first. -/
def wordHexLE (w : Nat) : List Char :=
  byteHex (w % 256) ++ byteHex ((w >>> 8) % 256)
    ++ byteHex ((w >>> 16) % 256) ++ byteHex ((w >>> 24) % 256)

/-- Model of `crypto.createHash('md5').update(s).digest('hex')`. -/
def md5Hex (s : String) : String :=
  let msg := md5Pad (strBytes s)
  let r := (chunks64 msg).foldl md5Block
    (0x67452301, 0xefcdab89, 0x98badcfe, 0x10325476)
  ⟨wordHexLE r.1 ++ wordHexLE r.2.1 ++ wordHexLE r.2.2.1 ++ wordHexLE r.2.2.2⟩

/-- Embedding of `createJobHash` from `src/database.ts`: MD5 of the lowercased
string `` `${job.title}-${job.company}-${job.url}` ``. -/
def createJobHash (job : JobPosting) : String :=
  let content := job.title ++ "-" ++ job.company ++ "-" ++ job.url
  md5Hex (jsToLower content)

/-! ### Store (`src/database.ts`) -/

/-- One persisted record of the `Job` Mongo collection (the fields the
embedded operations read or write); `scraped_at` is a millisecond
timestamp. -/
structure StoredJob where
  title : String
  company : String
  url : String
  description : Option String
  score : Option Int
  source : Option String
  scraped_at : Int
  analysis_status : String
  hash : String
deriving DecidableEq

/-- One week in milliseconds, `7 * 24 * 60 * 60 * 1000`. -/
def msPerWeek : Int := 7 * 24 * 60 * 60 * 1000

/-- The record built from a posting on insertion
(`{ ...job, hash, analysis_status: 'analyzed', scraped_at: new Date() }`,
shared by `weeklyRefreshJobs` and `saveJobToDatabase`). -/
def toStoredJob (job : JobPosting) (now : Int) : StoredJob :=
  { title := job.title, company := job.company, url := job.url,
    description := job.description, score := job.score, source := job.source,
    scraped_at := now, analysis_status := "analyzed",
    hash := createJobHash job }

/-- Embedding of `weeklyRefreshJobs` from `src/database.ts`, over an explicit store
state `db` and current time `now`: keep only batch postings with unseen
URLs, delete records older than one week whose URL is not in the batch,
insert the new postings, return the new store and the inserted count. -/
def weeklyRefreshJobs (db : List StoredJob) (jobs : List JobPosting)
    (now : Int) : List StoredJob × Nat :=
  let existingUrls := db.map (fun r => r.url)
  let newJobs := jobs.filter (fun job => !(existingUrls.contains job.url))
  let oneWeekAgo := now - msPerWeek
  let afterDelete := db.filter
    (fun r =>
      !(decide (r.scraped_at < oneWeekAgo) &&
        !((jobs.map (fun j => j.url)).contains r.url)))
  (afterDelete ++ newJobs.map (fun job => toStoredJob job now), newJobs.length)

/-- Embedding of `saveJobToDatabase` from `src/database.ts`: insert keyed by
`createJobHash`; returns `false` (store unchanged) when a record with
the same hash already exists. -/
def saveJobToDatabase (db : List StoredJob) (job : JobPosting) (now : Int) :
    List StoredJob × Bool :=
  let hash := createJobHash job
  if db.any (fun r => r.hash == hash) then (db, false)
  else (db ++ [toStoredJob job now], true)

/-! ### Incremental analysis (`src/analyzer-new.ts`) -/

/-- The `{ analyzed, saved, failed }` counters of
`analyzeAndSaveJobsIncremental`, together with the resulting store. -/
structure IncrementalResult where
  db : List StoredJob
  analyzed : Nat
  saved : Nat
  failed : Nat
deriving DecidableEq

/-- Embedding of `analyzeAndSaveJobsIncremental` from `src/analyzer-new.ts`.  The
oracle `throws` models which postings' per-item `try` block raised (the
embedded scorer itself is total).  On the success path the posting is
scored and saved (`saved` counts only fresh inserts); on the catch path
the posting is saved with `score: 0` and both `failed` and `saved` are
incremented (the catch path ignores `saveJobToDatabase`'s return
value); the loop always continues with the next posting.
`incStep` is the loop body, one iteration of the `for` loop. -/
def incStep (criteria : UserCriteria) (throws : JobPosting → Bool) (now : Int)
    (acc : IncrementalResult) (job : JobPosting) : IncrementalResult :=
  if throws job then
    let r := saveJobToDatabase acc.db { job with score := some 0 } now
    { db := r.1, analyzed := acc.analyzed, saved := acc.saved + 1,
      failed := acc.failed + 1 }
  else
    let analyzedJob := analyzeJob job criteria
    let r := saveJobToDatabase acc.db analyzedJob now
    { db := r.1, analyzed := acc.analyzed + 1,
      saved := acc.saved + (if r.2 then 1 else 0), failed := acc.failed }

def analyzeAndSaveJobsIncremental (jobs : List JobPosting)
    (criteria : UserCriteria) (throws : JobPosting → Bool)
    (db : List StoredJob) (now : Int) : IncrementalResult :=
  jobs.foldl (incStep criteria throws now)
    { db := db, analyzed := 0, saved := 0, failed := 0 }

/-! ### Batch deduplication (`src/scraper.ts`) -/

/-- The comparison inside `removeDuplicateJobs`'s `findIndex`:
case-insensitive equality of `(title, company)`. -/
def sameTitleCompany (a b : JobPosting) : Bool :=
  jsToLower a.title == jsToLower b.title &&
    jsToLower a.company == jsToLower b.company

/-- The indexed `filter` of `removeDuplicateJobs`: element `i` of
`self` is kept iff `self.findIndex(...) === i`. -/
def removeDupAux (self : List JobPosting) : Nat → List JobPosting → List JobPosting
  | _, [] => []
  | i, job :: rest =>
    if self.findIdx (fun j => sameTitleCompany j job) == i then
      job :: removeDupAux self (i + 1) rest
    else removeDupAux self (i + 1) rest

/-- Embedding of `removeDuplicateJobs` from `src/scraper.ts`: keep each posting only
at the first index holding its case-insensitive `(title, company)` pair. -/
def removeDuplicateJobs (jobs : List JobPosting) : List JobPosting :=
  removeDupAux jobs 0 jobs

/-- Seen-accumulator reformulation of `removeDuplicateJobs` (proved
equivalent below): a posting is kept iff no element of `seen` shares its
key, and every scanned posting joins `seen`. -/
def dedupeKeep : List JobPosting → List JobPosting → List JobPosting
  | _, [] => []
  | seen, job :: rest =>
    if seen.any (fun j => sameTitleCompany j job) then
      dedupeKeep (seen ++ [job]) rest
    else job :: dedupeKeep (seen ++ [job]) rest

/-- The skill sub-score as the spec states it: 15 for an empty
core-skill list; otherwise count the skills whose name or known lexical
variant occurs in the title-and-description text, and map
0 ↦ 0, 1–2 ↦ 30, more than 2 ↦ 40. -/
def skillSubScoreSpec (job : JobPosting) (coreSkills : List String) : Int :=
  if coreSkills = [] then 15
  else
    let matched := coreSkills.countP
      (fun s =>
        (skillVariations (jsToLower s)).any (fun v => sIncl (jobTextOf job) v))
    if matched = 0 then 0 else if matched ≤ 2 then 30 else 40

/-- The location sub-score as the spec states it: the maximum of the
remote bonus (30 when a remote/hybrid preference meets a remote-work
term, else the 15 base) and the location bonus (25 when a preferred
location occurs in the text, else the 15 base). -/
def locationSubScoreSpec (job : JobPosting) (criteria : UserCriteria) : Int :=
  let remoteOK :=
    (criteria.remotePreference == "remote" ||
      criteria.remotePreference == "hybrid") &&
      remoteTerms.any (fun term => sIncl (jobTextOf job) term)
  let locOK :=
    criteria.locations.any (fun location => sIncl (jobTextOf job) (jsToLower location))
  max (if remoteOK then 30 else 15) (if locOK then 25 else 15)

/-! ### Claim C5: missing description -/

/-- A neutral criteria set used in concrete scenarios. -/
def critCore (skills : List String) : UserCriteria :=
  { keywords := [], locations := [], experienceLevel := "", coreSkills := skills,
    remotePreference := "" }

/-- A concrete posting whose text contains "blockchain". -/
def jobBlockchain : JobPosting :=
  { title := "x", company := "c", url := "u",
    description := some "blockchain work" }

/-- The criteria `critCore []` with the excluded keyword "blockchain" added the way
claim C4 adds it. -/
def critWithBlockchain : UserCriteria :=
  { critCore [] with
    excludedKeywords :=
      some ((critCore []).excludedKeywords.getD [] ++ ["blockchain"]) }

/-! ### Claim C6: weekly refresh retention -/

/-- Number of stored records carrying a given URL. -/
def countUrl (db : List StoredJob) (u : String) : Nat :=
  (db.filter (fun r => r.url == u)).length

/-- Witness scenario for C6: a record scraped at time 0 (10 days before
`now = 864000000` ms). -/
def recOld : StoredJob :=
  { title := "t", company := "c", url := "old", description := none,
    score := none, source := none, scraped_at := 0,
    analysis_status := "analyzed", hash := "h" }

/-- A refresh batch whose only URL is "new". -/
def batchNew : List JobPosting := [{ title := "n", company := "c", url := "new" }]

/-- A refresh batch whose only URL is "old". -/
def batchOld : List JobPosting := [{ title := "n", company := "c", url := "old" }]

/-- A posting whose analysis is made to throw in the C7 scenario. -/
def jobFailC7 : JobPosting := { title := "a", company := "b", url := "u1" }

/-- The C7 scenario run: one posting, whose per-item processing throws,
against an empty store. -/
def runFailC7 : IncrementalResult :=
  analyzeAndSaveJobsIncremental [jobFailC7] (critCore []) (fun _ => true) [] 0

/-! ### Claim C10: the '-' separator makes the fingerprint non-injective -/

/-- Title "a-b", company "c": pre-hash string "a-b-c-u". -/
def collideLeft : JobPosting := { title := "a-b", company := "c", url := "u" }

/-- Title "a", company "b-c": pre-hash string "a-b-c-u" as well. -/
def collideRight : JobPosting := { title := "a", company := "b-c", url := "u" }

/-! ### Sub-score bounds -/

theorem scoreSkills_bounds (job : JobPosting) (sk : List String) :
    0 ≤ (scoreSkills job sk).score ∧ (scoreSkills job sk).score ≤ 40 := by
  unfold scoreSkills
  split
  · exact ⟨by norm_num, by norm_num⟩
  · dsimp only
    split_ifs <;> exact ⟨by norm_num, by norm_num⟩

theorem scoreExperienceLevel_bounds (job : JobPosting) (lvl : String) :
    0 ≤ (scoreExperienceLevel job lvl).score ∧
      (scoreExperienceLevel job lvl).score ≤ 30 := by
  unfold scoreExperienceLevel
  split
  · exact ⟨by norm_num, by norm_num⟩
  · dsimp only
    split_ifs <;> exact ⟨by norm_num, by norm_num⟩

theorem scoreLocation_bounds (job : JobPosting) (criteria : UserCriteria) :
    15 ≤ (scoreLocation job criteria).score ∧
      (scoreLocation job criteria).score ≤ 30 := by
  unfold scoreLocation
  dsimp only
  split_ifs <;> simp

theorem exclusions_foldl_le (jobText : String) (l : List String) (p : Int) :
    l.foldl
      (fun p keyword => if sIncl jobText (jsToLower keyword) then p - 10 else p)
      p ≤ p := by
  induction l generalizing p with
  | nil => simp
  | cons k rest ih =>
    simp only [List.foldl_cons]
    split_ifs
    · exact le_trans (ih (p - 10)) (by omega)
    · exact ih p

theorem scoreExclusions_nonpos (job : JobPosting) (criteria : UserCriteria) :
    (scoreExclusions job criteria).score ≤ 0 := by
  unfold scoreExclusions
  dsimp only
  split
  · norm_num
  · exact exclusions_foldl_le _ _ 0

theorem scoreBonusFeatures_bounds (job : JobPosting) :
    0 ≤ (scoreBonusFeatures job).score ∧ (scoreBonusFeatures job).score ≤ 8 := by
  unfold scoreBonusFeatures premiumIndicators
  dsimp only
  simp only [List.foldl_cons, List.foldl_nil]
  split_ifs <;> simp

/-- Claim C1: for every posting and every criteria, the rule-based
scorer produces an integer score (the `score` field is integer-valued
by construction) with `0 ≤ score ≤ 100`. -/
theorem analyzeJob_score_bounds (job : JobPosting) (criteria : UserCriteria) :
    ∃ s : Int, (analyzeJob job criteria).score = some s ∧ 0 ≤ s ∧ s ≤ 100 := by
  refine ⟨_, rfl, ?_, ?_⟩ <;> dsimp only [analyzeJob] <;> omega

/-! ### Claim C2: the skill step table -/

theorem recGet_recSet_eq (m : List (String × List String)) (k : String)
    (v : List String) : recGet (recSet m k v) k = some v := by
  induction m with
  | nil => simp [recSet, recGet]
  | cons hd tl ih =>
    obtain ⟨k', v'⟩ := hd
    by_cases h : k' = k
    · simp [recSet, recGet, h]
    · simp only [recSet, recGet, beq_iff_eq, h, if_false]
      exact ih

theorem recGet_recSet_ne (m : List (String × List String)) (k k' : String)
    (v : List String) (h : k' ≠ k) :
    recGet (recSet m k v) k' = recGet m k' := by
  induction m with
  | nil => simp [recSet, recGet, beq_iff_eq, Ne.symm h]
  | cons hd tl ih =>
    obtain ⟨k₀, v₀⟩ := hd
    by_cases hk : k₀ = k
    · subst hk
      simp [recSet, recGet, beq_iff_eq, Ne.symm h]
    · by_cases hk' : k₀ = k'
      · subst hk'
        simp [recSet, recGet, beq_iff_eq, hk]
      · simp only [recSet, recGet, beq_iff_eq, hk, hk', if_false]
        exact ih

/-- Every value stored by `createSkillGroups`'s fold is the variation
list determined by its key. -/
theorem skillGroups_fold_values (skills : List String)
    (init : List (String × List String))
    (hinit : ∀ k v, recGet init k = some v → v = skillVariations k) :
    ∀ k v,
      recGet
        (skills.foldl
          (fun groups skill =>
            recSet groups (jsToLower skill) (skillVariations (jsToLower skill)))
          init) k = some v → v = skillVariations k := by
  induction skills generalizing init with
  | nil => exact hinit
  | cons x rest ih =>
    simp only [List.foldl_cons]
    refine ih _ ?_
    intro k v hv
    by_cases hk : k = jsToLower x
    · subst hk
      rw [recGet_recSet_eq] at hv
      exact (Option.some_injective _ hv).symm
    · rw [recGet_recSet_ne _ _ _ _ hk] at hv
      exact hinit k v hv

/-- Keys already present survive the fold. -/
theorem skillGroups_fold_persists (skills : List String)
    (init : List (String × List String)) (k : String)
    (h : ∃ v, recGet init k = some v) :
    ∃ v,
      recGet
        (skills.foldl
          (fun groups skill =>
            recSet groups (jsToLower skill) (skillVariations (jsToLower skill)))
          init) k = some v := by
  induction skills generalizing init with
  | nil => exact h
  | cons x rest ih =>
    simp only [List.foldl_cons]
    refine ih _ ?_
    by_cases hk : k = jsToLower x
    · subst hk
      exact ⟨_, recGet_recSet_eq _ _ _⟩
    · rw [recGet_recSet_ne _ _ _ _ hk]
      exact h

/-- Every listed skill has an entry after the fold. -/
theorem skillGroups_fold_mem (skills : List String) (s : String)
    (h : s ∈ skills) (init : List (String × List String)) :
    ∃ v,
      recGet
        (skills.foldl
          (fun groups skill =>
            recSet groups (jsToLower skill) (skillVariations (jsToLower skill)))
          init) (jsToLower s) = some v := by
  induction skills generalizing init with
  | nil => cases h
  | cons x rest ih =>
    simp only [List.foldl_cons]
    rcases List.mem_cons.mp h with rfl | hmem
    · exact skillGroups_fold_persists rest _ _ ⟨_, recGet_recSet_eq _ _ _⟩
    · exact ih hmem _

/-- Every listed skill ends up with its variation list in the record. -/
theorem recGet_createSkillGroups (skills : List String) (s : String)
    (h : s ∈ skills) :
    recGet (createSkillGroups skills) (jsToLower s) =
      some (skillVariations (jsToLower s)) := by
  obtain ⟨v, hv⟩ := skillGroups_fold_mem skills s h []
  have := skillGroups_fold_values skills [] (by intro k v hkv; cases hkv) _ _ hv
  unfold createSkillGroups
  rw [hv, this]

/-- Claim C2: `scoreSkills` realizes exactly the spec's step table. -/
theorem scoreSkills_eq_spec (job : JobPosting) (sk : List String) :
    (scoreSkills job sk).score = skillSubScoreSpec job sk := by
  unfold scoreSkills skillSubScoreSpec
  by_cases hsk : sk = []
  · subst hsk; simp
  · rw [if_neg (by simp [List.isEmpty_iff, hsk]), if_neg hsk]
    dsimp only
    have hcount :
        sk.countP (skillIsMatch (createSkillGroups sk) (jobTextOf job)) =
          sk.countP
            (fun s =>
              (skillVariations (jsToLower s)).any
                (fun v => sIncl (jobTextOf job) v)) := by
      refine List.countP_congr ?_
      intro s hs
      unfold skillIsMatch
      rw [recGet_createSkillGroups sk s hs]
      simp
    rw [hcount]
    generalize sk.countP _ = m
    split_ifs <;> simp_all <;> omega

/-! ### Claim C3: location/remote sub-score -/

theorem not_isEmpty_and_any (l : List String) (p : String → Bool) :
    (!l.isEmpty && l.any p) = l.any p := by
  cases l <;> simp

/-- Claim C3: `scoreLocation` equals the spec's max-of-bonuses table:
15 by default, 30 for a remote hit, at least 25 for a location hit, and
the max (not the sum) when both hold. -/
theorem scoreLocation_eq_spec (job : JobPosting) (criteria : UserCriteria) :
    (scoreLocation job criteria).score = locationSubScoreSpec job criteria := by
  unfold scoreLocation locationSubScoreSpec
  dsimp only
  rw [not_isEmpty_and_any]
  split_ifs <;> simp [max_def]

/-! ### Claim C4: exclusion monotonicity -/

theorem scoreExclusions_score (job : JobPosting) (criteria : UserCriteria) :
    (scoreExclusions job criteria).score =
      (criteria.excludedKeywords.getD []).foldl
        (fun p keyword =>
          if sIncl (jobTextOf job) (jsToLower keyword) then p - 10 else p)
        0 := by
  unfold scoreExclusions
  dsimp only
  split
  · rename_i hE
    rw [List.isEmpty_iff] at hE
    rw [hE]
    rfl
  · rfl

/-- Claim C4: adding an excluded keyword that occurs in the posting's
text strictly decreases the total score, unless the score was already
clamped to 0 (in which case it stays 0). -/
theorem analyzeJob_exclusion_monotone (job : JobPosting)
    (criteria : UserCriteria) (k : String)
    (h : sIncl (jobTextOf job) (jsToLower k) = true) :
    (analyzeJob job
        { criteria with
          excludedKeywords :=
            some (criteria.excludedKeywords.getD [] ++ [k]) }).score.getD 0 <
      (analyzeJob job criteria).score.getD 0 ∨
    ((analyzeJob job criteria).score.getD 0 = 0 ∧
      (analyzeJob job
        { criteria with
          excludedKeywords :=
            some (criteria.excludedKeywords.getD [] ++ [k]) }).score.getD 0 = 0) := by
  have hexcl :
      (scoreExclusions job
        { criteria with
          excludedKeywords :=
            some (criteria.excludedKeywords.getD [] ++ [k]) }).score =
        (scoreExclusions job criteria).score - 10 := by
    rw [scoreExclusions_score, scoreExclusions_score]
    show (criteria.excludedKeywords.getD [] ++ [k]).foldl _ 0 = _
    rw [List.foldl_append]
    simp [h]
  have hskills := scoreSkills_bounds job criteria.coreSkills
  have hexp := scoreExperienceLevel_bounds job criteria.experienceLevel
  have hloc := scoreLocation_bounds job criteria
  have hbon := scoreBonusFeatures_bounds job
  have hneg := scoreExclusions_nonpos job criteria
  dsimp only [analyzeJob]
  simp only [Option.getD_some]
  rw [show (scoreLocation job
      { criteria with
        excludedKeywords :=
          some (criteria.excludedKeywords.getD [] ++ [k]) }) =
      scoreLocation job criteria from rfl]
  rw [show ({ criteria with
      excludedKeywords :=
        some (criteria.excludedKeywords.getD [] ++ [k]) } : UserCriteria).coreSkills =
      criteria.coreSkills from rfl]
  rw [show ({ criteria with
      excludedKeywords :=
        some (criteria.excludedKeywords.getD [] ++ [k]) } : UserCriteria).experienceLevel =
      criteria.experienceLevel from rfl]
  rw [hexcl]
  omega

/-- Counterexample to claim C5 as stated: with core skill "fine" and a
posting titled "x", an absent description is interpolated as the
literal string "undefined" (which contains "fine"), scoring 60, while
an empty-string description scores 30. -/
theorem analyzeJob_missing_description_counterexample :
    (analyzeJob { title := "x", company := "c", url := "u" }
        (critCore ["fine"])).score = some 60 ∧
    (analyzeJob { title := "x", company := "c", url := "u", description := some "" }
        (critCore ["fine"])).score = some 30 := by
  constructor <;> decide

/-- Claim C5 (amended): scoring a posting with an absent description
never throws (the embedding is total), and it equals scoring the same
posting with its description replaced by the string "undefined" — the
value JavaScript interpolates — not by the empty string. -/
theorem analyzeJob_missing_description (job : JobPosting)
    (criteria : UserCriteria) (h : job.description = none) :
    (analyzeJob job criteria).score =
      (analyzeJob { job with description := some "undefined" } criteria).score := by
  obtain ⟨t, c, u, d, sc, src⟩ := job
  subst h
  rfl

theorem analyzeJob_missing_description_witness :
    ({ title := "x", company := "c", url := "u" } : JobPosting).description = none ∧
    (analyzeJob { title := "x", company := "c", url := "u" }
        (critCore ["fine"])).score =
      (analyzeJob
        { title := "x", company := "c", url := "u", description := some "undefined" }
        (critCore ["fine"])).score :=
  ⟨rfl, analyzeJob_missing_description _ (critCore ["fine"]) rfl⟩

/-- Witness for C4 at a concrete input: adding excluded keyword
"blockchain", present in the posting text, drops the score. -/
theorem analyzeJob_exclusion_monotone_witness :
    sIncl (jobTextOf jobBlockchain) (jsToLower "blockchain") = true ∧
    ((analyzeJob jobBlockchain critWithBlockchain).score.getD 0 <
        (analyzeJob jobBlockchain (critCore [])).score.getD 0 ∨
      ((analyzeJob jobBlockchain (critCore [])).score.getD 0 = 0 ∧
        (analyzeJob jobBlockchain critWithBlockchain).score.getD 0 = 0)) :=
  ⟨by decide, analyzeJob_exclusion_monotone jobBlockchain (critCore []) "blockchain" (by decide)⟩

/-- Claim C6: `weeklyRefreshJobs` (i) deletes stored records older than
7 days whose URL is absent from the batch, (ii) keeps records whose URL
appears in the batch — regardless of age — without duplicating them,
(iii) inserts batch postings with previously-unseen URLs (as records
with `analysis_status = "analyzed"` and `scraped_at = now`), and
(iv) returns the number of newly inserted records. -/
theorem weeklyRefreshJobs_spec (db : List StoredJob) (batch : List JobPosting)
    (now : Int) :
    (∀ r ∈ db, r.scraped_at < now - msPerWeek →
        (∀ j ∈ batch, j.url ≠ r.url) → r ∉ (weeklyRefreshJobs db batch now).1) ∧
    (∀ r ∈ db, (∃ j ∈ batch, j.url = r.url) →
        r ∈ (weeklyRefreshJobs db batch now).1 ∧
        countUrl (weeklyRefreshJobs db batch now).1 r.url = countUrl db r.url) ∧
    (∀ j ∈ batch, (∀ r ∈ db, r.url ≠ j.url) →
        toStoredJob j now ∈ (weeklyRefreshJobs db batch now).1) ∧
    (weeklyRefreshJobs db batch now).2 =
      (batch.filter (fun j => decide (∀ r ∈ db, r.url ≠ j.url))).length := by
  unfold weeklyRefreshJobs
  dsimp only
  refine ⟨?_, ?_, ?_, ?_⟩
  · -- (i) old, unconfirmed records are gone
    intro r hr hold hurl
    rw [List.mem_append]
    rintro (hmem | hmem)
    · rw [List.mem_filter] at hmem
      obtain ⟨-, hpred⟩ := hmem
      simp [hold] at hpred
      obtain ⟨a, ha, hae⟩ := hpred
      exact hurl a ha hae
    · rw [List.mem_map] at hmem
      obtain ⟨j, hj, hje⟩ := hmem
      rw [List.mem_filter] at hj
      have hju : j.url = r.url := by rw [← hje]; rfl
      exact hurl j hj.1 hju
  · -- (ii) batch-confirmed records survive, without duplication
    rintro r hr ⟨j, hj, hju⟩
    have hcont : (batch.map (fun j => j.url)).contains r.url = true := by
      rw [List.contains_iff_exists_mem_beq]
      exact ⟨j.url, List.mem_map.mpr ⟨j, hj, rfl⟩, by rw [beq_iff_eq, hju]⟩
    have hpred :
        (!(decide (r.scraped_at < now - msPerWeek) &&
          !((batch.map (fun j => j.url)).contains r.url))) = true := by
      simp
      exact Or.inr ⟨j, hj, hju⟩
    refine ⟨List.mem_append_left _ (List.mem_filter.mpr ⟨hr, hpred⟩), ?_⟩
    unfold countUrl
    rw [List.filter_append, List.length_append]
    have h2 :
        ((List.filter (fun job => !((db.map (fun r => r.url)).contains job.url))
            batch).map (fun job => toStoredJob job now)).filter
          (fun x => x.url == r.url) = [] := by
      rw [List.filter_eq_nil_iff]
      intro a ha
      rw [List.mem_map] at ha
      obtain ⟨j', hj', rfl⟩ := ha
      rw [List.mem_filter] at hj'
      intro hbeq
      rw [beq_iff_eq] at hbeq
      have : (db.map (fun r => r.url)).contains j'.url = true := by
        rw [List.contains_iff_exists_mem_beq]
        refine ⟨r.url, List.mem_map.mpr ⟨r, hr, rfl⟩, ?_⟩
        rw [beq_iff_eq]
        exact hbeq
      rw [this] at hj'
      exact absurd hj'.2 (by simp)
    have h1 :
        (db.filter
            (fun r => !(decide (r.scraped_at < now - msPerWeek) &&
              !((batch.map (fun j => j.url)).contains r.url)))).filter
          (fun x => x.url == r.url) = db.filter (fun x => x.url == r.url) := by
      rw [List.filter_filter]
      refine List.filter_congr ?_
      intro x hx
      by_cases hxu : x.url = r.url
      · simp [hxu]
        exact Or.inr ⟨j, hj, hju⟩
      · simp [hxu]
    rw [h1, h2]
    simp
  · -- (iii) previously-unseen batch postings are inserted
    intro j hj hnew
    exact List.mem_append_right _
      (List.mem_map.mpr ⟨j, List.mem_filter.mpr ⟨hj, by simp; exact hnew⟩, rfl⟩)
  · -- (iv) the returned count is the number of new URLs
    refine congrArg List.length (List.filter_congr ?_)
    intro j hj
    by_cases hc : ∀ r ∈ db, r.url ≠ j.url
    · have hex : ¬ ∃ a ∈ db, a.url = j.url := by
        rintro ⟨a, ha, hae⟩
        exact hc a ha hae
      simp [hex]
      exact hc
    · push_neg at hc
      obtain ⟨r, hr, hru⟩ := hc
      have hnall : ¬ ∀ x ∈ db, x.url ≠ j.url := fun hall => hall r hr hru
      simp [hnall]
      exact ⟨r, hr, hru⟩

theorem weeklyRefreshJobs_spec_witness :
    recOld ∉ (weeklyRefreshJobs [recOld] batchNew 864000000).1 ∧
    (recOld ∈ (weeklyRefreshJobs [recOld] batchOld 864000000).1 ∧
      countUrl (weeklyRefreshJobs [recOld] batchOld 864000000).1 recOld.url =
        countUrl [recOld] recOld.url) :=
  ⟨(weeklyRefreshJobs_spec [recOld] batchNew 864000000).1 recOld
      (by decide) (by decide) (by decide),
    (weeklyRefreshJobs_spec [recOld] batchOld 864000000).2.1 recOld
      (by decide) (by decide)⟩

/-! ### Claim C7: failed postings on the incremental path -/

theorem createJobHash_set_score (job : JobPosting) (s : Option Int) :
    createJobHash { job with score := s } = createJobHash job := rfl

theorem createJobHash_analyzeJob (job : JobPosting) (criteria : UserCriteria) :
    createJobHash (analyzeJob job criteria) = createJobHash job := rfl

theorem mem_saveJobToDatabase (db : List StoredJob) (job : JobPosting)
    (now : Int) (r : StoredJob) (h : r ∈ db) :
    r ∈ (saveJobToDatabase db job now).1 := by
  unfold saveJobToDatabase
  dsimp only
  split
  · exact h
  · exact List.mem_append_left _ h

theorem inc_fold_persist (criteria : UserCriteria) (throws : JobPosting → Bool)
    (now : Int) (jobs : List JobPosting) (acc : IncrementalResult)
    (r : StoredJob) (h : r ∈ acc.db) :
    r ∈ (jobs.foldl (incStep criteria throws now) acc).db := by
  induction jobs generalizing acc with
  | nil => exact h
  | cons x rest ih =>
    rw [List.foldl_cons]
    refine ih _ ?_
    unfold incStep
    split <;> exact mem_saveJobToDatabase _ _ _ _ h

/-- Core induction for the amended C7: once a failing posting's hash is
(or becomes) present, the final store contains a record with that hash,
score 0 and status "analyzed". -/
theorem inc_fold_failed_saved (criteria : UserCriteria)
    (throws : JobPosting → Bool) (now : Int) (j : JobPosting)
    (hthrow : throws j = true) :
    ∀ (jobs : List JobPosting) (acc : IncrementalResult),
      (∀ j' ∈ jobs, createJobHash j' = createJobHash j → j' = j) →
      (∀ r ∈ acc.db, r.hash = createJobHash j →
        r.score = some 0 ∧ r.analysis_status = "analyzed") →
      (j ∈ jobs ∨ ∃ r ∈ acc.db, r.hash = createJobHash j) →
      ∃ r ∈ (jobs.foldl (incStep criteria throws now) acc).db,
        r.hash = createJobHash j ∧ r.score = some 0 ∧
          r.analysis_status = "analyzed" := by
  intro jobs
  induction jobs with
  | nil =>
    intro acc _ hgood hmem
    rcases hmem with hmem | ⟨r, hr, hrh⟩
    · cases hmem
    · exact ⟨r, hr, hrh, hgood r hr hrh⟩
  | cons x rest ih =>
    intro acc huniq hgood hmem
    rw [List.foldl_cons]
    have hgood' : ∀ r ∈ (incStep criteria throws now acc x).db,
        r.hash = createJobHash j →
        r.score = some 0 ∧ r.analysis_status = "analyzed" := by
      intro r hr hrh
      unfold incStep saveJobToDatabase at hr
      dsimp only at hr
      by_cases ht : throws x = true
      · rw [if_pos ht] at hr
        dsimp only at hr
        split at hr
        · exact hgood r hr hrh
        · rcases List.mem_append.mp hr with hr | hr
          · exact hgood r hr hrh
          · rcases List.mem_singleton.mp hr with rfl
            have hxj : x = j := by
              refine huniq x (List.mem_cons_self x rest) ?_
              rw [← createJobHash_set_score x (some 0)]
              exact hrh
            subst hxj
            exact ⟨rfl, rfl⟩
      · rw [if_neg ht] at hr
        dsimp only at hr
        split at hr
        · exact hgood r hr hrh
        · rcases List.mem_append.mp hr with hr | hr
          · exact hgood r hr hrh
          · rcases List.mem_singleton.mp hr with rfl
            have hxj : x = j := by
              refine huniq x (List.mem_cons_self x rest) ?_
              rw [← createJobHash_analyzeJob x criteria]
              exact hrh
            subst hxj
            rw [hthrow] at ht
            exact absurd rfl ht
    refine ih _ (fun j' hj' => huniq j' (List.mem_cons_of_mem x hj')) hgood' ?_
    rcases hmem with hmem | ⟨r, hr, hrh⟩
    · rcases List.mem_cons.mp hmem with rfl | hmem
      · right
        unfold incStep saveJobToDatabase
        rw [if_pos hthrow]
        dsimp only
        split
        · rename_i hany
          rcases List.any_eq_true.mp hany with ⟨r, hr, hbeq⟩
          rw [beq_iff_eq] at hbeq
          rw [createJobHash_set_score] at hbeq
          exact ⟨r, hr, hbeq⟩
        · refine ⟨toStoredJob { j with score := some 0 } now, ?_, ?_⟩
          · exact List.mem_append_right _ (List.mem_singleton.mpr rfl)
          · exact createJobHash_set_score j (some 0)
      · exact Or.inl hmem
    · right
      refine ⟨r, ?_, hrh⟩
      unfold incStep
      split <;> exact mem_saveJobToDatabase _ _ _ _ hr

theorem inc_fold_counts (criteria : UserCriteria) (throws : JobPosting → Bool)
    (now : Int) :
    ∀ (jobs : List JobPosting) (acc : IncrementalResult),
      (jobs.foldl (incStep criteria throws now) acc).analyzed =
        acc.analyzed + (jobs.filter (fun x => !(throws x))).length ∧
      (jobs.foldl (incStep criteria throws now) acc).failed =
        acc.failed + (jobs.filter throws).length := by
  intro jobs
  induction jobs with
  | nil => intro acc; simp
  | cons x rest ih =>
    intro acc
    rw [List.foldl_cons]
    obtain ⟨h1, h2⟩ := ih (incStep criteria throws now acc x)
    rw [h1, h2]
    unfold incStep
    by_cases ht : throws x = true <;> simp [ht] <;> omega

/-- Claim C7 (amended): on the incremental path, a posting whose
analysis throws is still persisted — with score 0 and with
`analysis_status = "analyzed"` (hard-coded by `saveJobToDatabase`), not
"failed" — and the batch keeps going: every posting is counted either
analyzed or failed. -/
theorem analyzeAndSaveJobsIncremental_failed (jobs : List JobPosting)
    (criteria : UserCriteria) (throws : JobPosting → Bool)
    (db : List StoredJob) (now : Int) (j : JobPosting)
    (h1 : j ∈ jobs) (h2 : throws j = true)
    (h3 : ∀ j' ∈ jobs, createJobHash j' = createJobHash j → j' = j)
    (h4 : ∀ r ∈ db, r.hash ≠ createJobHash j) :
    (∃ r ∈ (analyzeAndSaveJobsIncremental jobs criteria throws db now).db,
        r.hash = createJobHash j ∧ r.score = some 0 ∧
          r.analysis_status = "analyzed") ∧
    (analyzeAndSaveJobsIncremental jobs criteria throws db now).analyzed =
      (jobs.filter (fun x => !(throws x))).length ∧
    (analyzeAndSaveJobsIncremental jobs criteria throws db now).failed =
      (jobs.filter throws).length := by
  unfold analyzeAndSaveJobsIncremental
  refine ⟨inc_fold_failed_saved criteria throws now j h2 jobs _ h3 ?_ (Or.inl h1),
    ?_, ?_⟩
  · intro r hr hrh
    exact absurd hrh (h4 r hr)
  · have := (inc_fold_counts criteria throws now jobs
      { db := db, analyzed := 0, saved := 0, failed := 0 }).1
    simpa using this
  · have := (inc_fold_counts criteria throws now jobs
      { db := db, analyzed := 0, saved := 0, failed := 0 }).2
    simpa using this

/-- Counterexample to claim C7 as stated: the failing posting is
persisted, but with lifecycle status "analyzed" — `saveJobToDatabase`
hard-codes `analysis_status: 'analyzed'` — not "failed". -/
theorem analyzeAndSave_failed_status_counterexample :
    runFailC7.failed = 1 ∧
    runFailC7.db.map (fun r => r.analysis_status) = ["analyzed"] ∧
    "analyzed" ≠ "failed" :=
  ⟨rfl, rfl, by decide⟩

theorem analyzeAndSaveJobsIncremental_failed_witness :
    (∃ r ∈ (analyzeAndSaveJobsIncremental [jobFailC7] (critCore [])
        (fun _ => true) [] 0).db,
        r.hash = createJobHash jobFailC7 ∧ r.score = some 0 ∧
          r.analysis_status = "analyzed") ∧
    (analyzeAndSaveJobsIncremental [jobFailC7] (critCore [])
        (fun _ => true) [] 0).analyzed =
      ([jobFailC7].filter (fun x => !(fun (_ : JobPosting) => true) x)).length ∧
    (analyzeAndSaveJobsIncremental [jobFailC7] (critCore [])
        (fun _ => true) [] 0).failed =
      ([jobFailC7].filter (fun _ => true)).length :=
  analyzeAndSaveJobsIncremental_failed [jobFailC7] (critCore [])
    (fun _ => true) [] 0 jobFailC7 (List.mem_singleton.mpr rfl) rfl
    (fun _ hj _ => List.mem_singleton.mp hj)
    (fun r hr => absurd hr (List.not_mem_nil r))

/-! ### Claim C8: fingerprint determinism and case-insensitivity -/

theorem jsToLower_append (a b : String) :
    jsToLower (a ++ b) = jsToLower a ++ jsToLower b := by
  apply String.ext
  show ((a ++ b).data.map Char.toLower) = (jsToLower a ++ jsToLower b).data
  rw [String.data_append, String.data_append, List.map_append]
  rfl

/-- Claim C8: `createJobHash` is a pure function of the case-normalized
`(title, company, url)` triple — deterministic (no salt or per-process
state: the embedding is a pure function) and case-insensitive. -/
theorem createJobHash_case_insensitive (p q : JobPosting)
    (ht : jsToLower p.title = jsToLower q.title)
    (hc : jsToLower p.company = jsToLower q.company)
    (hu : jsToLower p.url = jsToLower q.url) :
    createJobHash p = createJobHash q := by
  unfold createJobHash
  refine congrArg md5Hex ?_
  simp only [jsToLower_append, ht, hc, hu]

/-- Witness for C8 at the spec's concrete example: "Dev"/"Acme" versus
"DEV"/"ACME" at the same URL. -/
theorem createJobHash_case_insensitive_witness :
    jsToLower "Dev" = jsToLower "DEV" ∧
    jsToLower "Acme" = jsToLower "ACME" ∧
    createJobHash { title := "Dev", company := "Acme", url := "https://x/1" } =
      createJobHash { title := "DEV", company := "ACME", url := "https://x/1" } :=
  ⟨by decide, by decide,
    createJobHash_case_insensitive
      { title := "Dev", company := "Acme", url := "https://x/1" }
      { title := "DEV", company := "ACME", url := "https://x/1" }
      (by decide) (by decide) (by decide)⟩

/-! ### Claim C9: dedup idempotence -/

theorem sameTitleCompany_self (j : JobPosting) : sameTitleCompany j j = true := by
  simp [sameTitleCompany]

theorem findIdx_append_cons_self (p : JobPosting → Bool) :
    ∀ (seen rest : List JobPosting) (j : JobPosting), p j = true →
      (∀ x ∈ seen, p x = false) →
      List.findIdx p (seen ++ j :: rest) = seen.length := by
  intro seen
  induction seen with
  | nil =>
    intro rest j hj _
    simp [List.findIdx_cons, hj]
  | cons a seen' ih =>
    intro rest j hj hall
    have ha : p a = false := hall a (List.mem_cons_self a seen')
    simp only [List.cons_append, List.findIdx_cons, ha, cond_false, List.length_cons]
    rw [ih rest j hj (fun x hx => hall x (List.mem_cons_of_mem a hx))]

theorem findIdx_append_lt (p : JobPosting → Bool) :
    ∀ (seen l : List JobPosting), (∃ x ∈ seen, p x = true) →
      List.findIdx p (seen ++ l) < seen.length := by
  intro seen
  induction seen with
  | nil =>
    rintro l ⟨x, hx, -⟩
    cases hx
  | cons a seen' ih =>
    rintro l ⟨x, hx, hpx⟩
    by_cases ha : p a = true
    · simp [List.findIdx_cons, ha]
    · rcases List.mem_cons.mp hx with rfl | hx'
      · rw [Bool.not_eq_true] at ha
        rw [hpx] at ha
        cases ha
      · have hfa : p a = false := by rwa [Bool.not_eq_true] at ha
        have := ih l ⟨x, hx', hpx⟩
        simp only [List.cons_append, List.findIdx_cons, hfa, cond_false,
          List.length_cons]
        omega

/-- The indexed filter of `removeDuplicateJobs` agrees with the
seen-accumulator formulation. -/
theorem removeDupAux_eq_dedupeKeep :
    ∀ (rest seen : List JobPosting),
      removeDupAux (seen ++ rest) seen.length rest = dedupeKeep seen rest := by
  intro rest
  induction rest with
  | nil => intro seen; rfl
  | cons job rest' ih =>
    intro seen
    unfold removeDupAux dedupeKeep
    have hassoc : seen ++ job :: rest' = (seen ++ [job]) ++ rest' := by simp
    have hlen : (seen ++ [job]).length = seen.length + 1 := by simp
    by_cases hany : seen.any (fun j => sameTitleCompany j job) = true
    · obtain ⟨x, hx, hpx⟩ := List.any_eq_true.mp hany
      have hlt := findIdx_append_lt (fun j => sameTitleCompany j job)
        seen (job :: rest') ⟨x, hx, hpx⟩
      rw [if_neg (by simp; omega), if_pos hany]
      rw [hassoc, show seen.length + 1 = (seen ++ [job]).length from hlen.symm]
      exact ih (seen ++ [job])
    · have hall : ∀ x ∈ seen, sameTitleCompany x job = false := by
        intro x hx
        rcases Bool.eq_false_or_eq_true (sameTitleCompany x job) with h | h
        · exact absurd (List.any_eq_true.mpr ⟨x, hx, h⟩) hany
        · exact h
      have heq := findIdx_append_cons_self (fun j => sameTitleCompany j job)
        seen rest' job (sameTitleCompany_self job) hall
      rw [if_pos (by simp [heq]), if_neg hany]
      rw [hassoc, show seen.length + 1 = (seen ++ [job]).length from hlen.symm]
      rw [ih (seen ++ [job])]

theorem removeDuplicateJobs_eq_dedupeKeep (jobs : List JobPosting) :
    removeDuplicateJobs jobs = dedupeKeep [] jobs := by
  have := removeDupAux_eq_dedupeKeep jobs []
  simpa [removeDuplicateJobs] using this

theorem dedupeKeep_fresh :
    ∀ (rest seen : List JobPosting) (j : JobPosting),
      j ∈ dedupeKeep seen rest → ∀ x ∈ seen, sameTitleCompany x j = false := by
  intro rest
  induction rest with
  | nil =>
    intro seen j hj
    cases hj
  | cons job rest' ih =>
    intro seen j hj x hx
    unfold dedupeKeep at hj
    split at hj
    · exact ih (seen ++ [job]) j hj x (List.mem_append_left _ hx)
    · rcases List.mem_cons.mp hj with rfl | hj'
      · rename_i hany
        rcases Bool.eq_false_or_eq_true (sameTitleCompany x j) with h | h
        · exact absurd (List.any_eq_true.mpr ⟨x, hx, h⟩) hany
        · exact h
      · exact ih (seen ++ [job]) j hj' x (List.mem_append_left _ hx)

theorem dedupeKeep_pairwise :
    ∀ (rest seen : List JobPosting),
      List.Pairwise (fun a b => sameTitleCompany a b = false)
        (dedupeKeep seen rest) := by
  intro rest
  induction rest with
  | nil => intro seen; exact List.Pairwise.nil
  | cons job rest' ih =>
    intro seen
    unfold dedupeKeep
    split
    · exact ih (seen ++ [job])
    · refine List.Pairwise.cons ?_ (ih (seen ++ [job]))
      intro b hb
      exact dedupeKeep_fresh rest' (seen ++ [job]) b hb job
        (List.mem_append_right _ (List.mem_singleton.mpr rfl))

theorem dedupeKeep_of_pairwise :
    ∀ (l seen : List JobPosting),
      List.Pairwise (fun a b => sameTitleCompany a b = false) l →
      (∀ j ∈ l, seen.any (fun x => sameTitleCompany x j) = false) →
      dedupeKeep seen l = l := by
  intro l
  induction l with
  | nil => intro seen _ _; rfl
  | cons job rest ih =>
    intro seen hpw hfresh
    unfold dedupeKeep
    rw [if_neg (by rw [hfresh job (List.mem_cons_self job rest)]; simp)]
    refine congrArg (job :: ·) (ih (seen ++ [job]) hpw.of_cons ?_)
    intro j hj
    rw [List.any_append]
    rw [hfresh j (List.mem_cons_of_mem job hj)]
    simp only [Bool.false_or, List.any_cons, List.any_nil, Bool.or_false]
    exact List.rel_of_pairwise_cons hpw hj

/-- Claim C9: batch deduplication is idempotent. -/
theorem removeDuplicateJobs_idempotent (xs : List JobPosting) :
    removeDuplicateJobs (removeDuplicateJobs xs) = removeDuplicateJobs xs := by
  rw [removeDuplicateJobs_eq_dedupeKeep xs,
    removeDuplicateJobs_eq_dedupeKeep (dedupeKeep [] xs)]
  exact dedupeKeep_of_pairwise (dedupeKeep [] xs) []
    (dedupeKeep_pairwise xs []) (fun j _ => rfl)

/-- Claim C10: two postings whose `(title, company, url)` triples differ
even case-insensitively share a fingerprint, because the fields are
joined with a plain "-" before hashing. -/
theorem createJobHash_not_injective :
    createJobHash collideLeft = createJobHash collideRight ∧
    jsToLower collideLeft.title ≠ jsToLower collideRight.title :=
  ⟨congrArg md5Hex (by decide), by decide⟩

end JobSearcher
